import Mathlib

/-! Verification of the router core (schema parsing, fuzzy hints, suggestion
reconciliation) against its natural-language specification.

The definitions below are a shallow embedding of `src/router.py` (with the
equivalent code in `src/routerD.py` / `src/routerL.py`):
  * `_parse_db_description` models the line parser (router.py lines 18-36),
    taking the already-split lines of the schema text;
  * `flatColumns` models `_FLAT_COLUMNS` (router.py line 39);
  * `reconcile` models the post-oracle reconciliation step of `decide_route`
    (router.py lines 155-165);
  * the fuzzy machinery models `_fuzzy_suggest` (router.py lines 42-58),
    with the third-party scorer `fuzz.partial_ratio` and `process.extract`
    embedded from their documented behaviour: indel similarity
    `200 * lcs / (len1 + len2)` maximized over sliding windows of the longer
    string, and extraction of the `limit` best-scoring candidates (stable,
    ties by candidate index).  Scores are exact rationals.
-/

namespace Router

/-- ASCII word character, the character class `[A-Za-z0-9_]` used by the
regexes in the source. -/
def isWordChar (c : Char) : Bool :=
  c.isAlpha || c.isDigit || c = '_'

/-- Whitespace as matched by the regex class `\s` (ASCII range). -/
def isSpaceChar (c : Char) : Bool :=
  c = ' ' || c = '\t' || c = '\n' || c = '\r' || c = '\x0b' || c = '\x0c'

/-- Model of `re.match(r"^###\s+([A-Za-z0-9_]+)", raw)` followed by
`.group(1).lower()`: a table heading is `###`, at least one whitespace
character, then a non-empty word-character run (the captured group is the
maximal run; the regex need not cover the whole line). -/
def matchTable (line : String) : Option String :=
  match line.toList with
  | '#' :: '#' :: '#' :: rest =>
    match rest with
    | c :: _ =>
      if isSpaceChar c then
        let name := (rest.dropWhile isSpaceChar).takeWhile isWordChar
        if name = [] then none else some (String.mk (name.map Char.toLower))
      else none
    | [] => none
  | _ => none

/-- Model of `raw.lstrip(" \t-")` followed by
`re.match(r"^([A-Za-z0-9_]+):", line)` and `.group(1).lower()` (router.py),
equivalently of `re.match(r"^[ \t\-]*([A-Za-z0-9_]+):", line)`
(routerD.py / routerL.py): optional leading spaces/tabs/hyphens, a non-empty
word-character run, then a colon. -/
def matchColumn (line : String) : Option String :=
  let l := line.toList.dropWhile (fun c => c = ' ' || c = '\t' || c = '-')
  let name := l.takeWhile isWordChar
  if name = [] then none
  else
    match l.dropWhile isWordChar with
    | ':' :: _ => some (String.mk (name.map Char.toLower))
    | _ => none

/-- Parser state: the insertion-ordered `schema` dict and `current_table`. -/
structure PState where
  schema : List (String × List String)
  current : Option String

/-- Model of `schema[current_table] = []`: Python-dict assignment on an
insertion-ordered map — an existing key keeps its position and has its value
replaced, a fresh key is appended at the end. -/
def setTable (m : List (String × List String)) (t : String) :
    List (String × List String) :=
  if m.any (fun p => p.1 == t) then
    m.map (fun p => if p.1 == t then (t, ([] : List String)) else p)
  else m ++ [(t, [])]

/-- Model of `schema[current_table].append(col)`. -/
def addColumn (m : List (String × List String)) (t : String) (c : String) :
    List (String × List String) :=
  m.map (fun p => if p.1 == t then (p.1, p.2 ++ [c]) else p)

/-- One iteration of the parser loop of `_parse_db_description`
(router.py lines 22-34). -/
def pstep (s : PState) (line : String) : PState :=
  match matchTable line with
  | some t => ⟨setTable s.schema t, some t⟩
  | none =>
    match s.current with
    | some t =>
      match matchColumn line with
      | some c => ⟨addColumn s.schema t c, s.current⟩
      | none => s
    | none => s

/-- The parser `_parse_db_description` on the lines of the schema text
(router.py lines 18-36): fold the parser loop from the empty schema with no
active table. -/
def _parse_db_description (lines : List String) : List (String × List String) :=
  (lines.foldl pstep ⟨[], none⟩).schema

/-- Model of `_FLAT_COLUMNS` (router.py line 39): flatten a parsed schema into
`table.column` strings, tables in map order, columns in list order. -/
def flatColumns (schema : List (String × List String)) : List String :=
  schema.flatMap (fun p => p.2.map (fun c => p.1 ++ "." ++ c))

/-- Model of `valid_suggestions` (router.py line 156): the oracle suggestions that
survive the schema-validity filter. -/
def validOf (flat original_suggestions : List String) : List String :=
  original_suggestions.filter (fun s => decide (s ∈ flat))

/-- The reconciliation step of `decide_route` (router.py lines 155-165):
filter the oracle's suggestions to schema-valid ones, backfill from the
fuzzy hints when fewer than 3 survived, and force the empty list on a
`clarify` route. -/
def reconcile (flat : List String) (route : String)
    (original_suggestions hints : List String) : List String :=
  let valid_suggestions := validOf flat original_suggestions
  let backfilled :=
    if valid_suggestions.length < 3 then
      valid_suggestions ++
        (hints.filter
          (fun s => decide (s ∈ flat) && !(decide (s ∈ valid_suggestions)))).take
          (3 - valid_suggestions.length)
    else valid_suggestions
  if route = "clarify" then [] else backfilled

/-! Specification-side view of the parser -/

/-- The table names announced by heading lines, in text order. -/
def headings (lines : List String) : List String :=
  lines.filterMap matchTable

/-- The column declarations of the current segment: column matches before
the next table heading. -/
def segCols : List String → List String
  | [] => []
  | l :: ls =>
    match matchTable l with
    | some _ => []
    | none =>
      match matchColumn l with
      | some c => c :: segCols ls
      | none => segCols ls

/-- Spec-side grouping: each heading, in order of appearance, paired with
the column lines that follow it up to the next heading.  Column lines
before any heading contribute to no table. -/
def specTables : List String → List (String × List String)
  | [] => []
  | l :: ls =>
    match matchTable l with
    | some t => (t, segCols ls) :: specTables ls
    | none => specTables ls

/-- The flat column list the specification describes: `table.column` over
tables in order of appearance, columns in declaration order. -/
def specFlat (lines : List String) : List String :=
  flatColumns (specTables lines)

/-- Bulk version of `addColumn`, used to state the parser invariant. -/
def addColumns (m : List (String × List String)) (t : String)
    (cs : List String) : List (String × List String) :=
  m.map (fun p => if p.1 == t then (p.1, p.2 ++ cs) else p)

/-! Error handling of index construction (C8) -/

/-- The index builder including its only fallible step, the
`path.read_text` call of router.py line 22: an unreadable source is
modelled as `none` and surfaces the I/O-level failure (the spec's
`SchemaParseError`); readable text is parsed by the total line loop. -/
def buildSchemaIndex :
    Option (List String) → Except String (List (String × List String))
  | none => .error "SchemaParseError"
  | some lines => .ok (_parse_db_description lines)

/-! Repeated table headings (C9) -/

/-- Python-dict lookup `schema[t]` on the association-list model. -/
def lookupKey (t : String) (m : List (String × List String)) :
    Option (List String) :=
  (m.find? (fun p => p.1 == t)).map (fun p => p.2)

/-- First-occurrence deduplication with an explicit seen accumulator. -/
def dedupFirstAux : List String → List String → List String
  | _, [] => []
  | seen, x :: xs =>
    if x ∈ seen then dedupFirstAux seen xs
    else x :: dedupFirstAux (seen ++ [x]) xs

/-- Table names in order of first appearance. -/
def dedupFirst (xs : List String) : List String :=
  dedupFirstAux [] xs

/-! Fuzzy hint engine -/

/-- One DP step of the longest-common-subsequence row computation. -/
def lcsAux (c : Char) : List Char → List Nat → Nat → Nat → List Nat
  | [], _, _, _ => []
  | b :: bs, ups, diag, cur =>
    match ups with
    | up :: ups' =>
      let v := if b = c then diag + 1 else max up cur
      v :: lcsAux c bs ups' up v
    | [] => []

/-- Advance the LCS row for one character of the first string. -/
def lcsRow (b : List Char) (prev : List Nat) (c : Char) : List Nat :=
  0 :: lcsAux c b (prev.drop 1) (prev.headD 0) 0

/-- Length of a longest common subsequence, by row dynamic programming. -/
def lcsLen (a b : List Char) : Nat :=
  (a.foldl (lcsRow b) (List.replicate (b.length + 1) 0)).getLastD 0

/-- Running maximum on scores (`:=` Python `max` on two rationals), via the
kernel-computable comparison `Rat.blt`. -/
def rmax (a b : ℚ) : ℚ :=
  if Rat.blt a b then b else a

/-- rapidfuzz `fuzz.ratio`: normalized indel similarity scaled to 0-100, an
exact rational `200·lcs/(|a|+|b|)` (indel distance is `|a|+|b|-2·lcs`). -/
def ratioQ (a b : List Char) : ℚ :=
  if a.length + b.length = 0 then 100
  else mkRat (200 * (lcsLen a b : Int)) (a.length + b.length)

/-- The candidate alignments scanned by `fuzz.partial_ratio`: every window
of the longer string with the needle's length `m`, plus the shorter
windows overhanging either end. -/
def alignWindows (m : Nat) (hay : List Char) : List (List Char) :=
  ((List.range' 1 (m - 1)).map (fun i => hay.take i)) ++
    ((List.range (hay.length - m + 1)).map (fun i => (hay.drop i).take m)) ++
    ((List.range' (hay.length - m + 1) (m - 1)).map (fun i => hay.drop i))

/-- rapidfuzz `fuzz.partial_ratio`: the best `ratio` of the shorter string
against the aligned windows of the longer one. -/
def pRatio (s1 s2 : List Char) : ℚ :=
  let needle := if s1.length ≤ s2.length then s1 else s2
  let hay := if s1.length ≤ s2.length then s2 else s1
  if needle = [] then (if hay = [] then 100 else 0)
  else ((alignWindows needle.length hay).map (ratioQ needle)).foldl rmax 0

/-- Maximal word-character runs of a character list (accumulator holds the
current run, reversed). -/
def runsAux : List Char → List Char → List (List Char)
  | [], acc => if acc = [] then [] else [acc.reverse]
  | c :: cs, acc =>
    if isWordChar c then runsAux cs (c :: acc)
    else (if acc = [] then [] else [acc.reverse]) ++ runsAux cs []

/-- Model of the tokenizer `re.findall` of word runs of length at least 3
on the lowercased text (router.py line 43). -/
def tokensOf (text : String) : List (List Char) :=
  (runsAux (text.toList.map Char.toLower) []).filter (fun t => 3 ≤ t.length)

/-- Descending-score order on scored candidates; with a stable sort this is
exactly Python's `sorted(..., reverse=True)` on the score key. -/
def rdesc (a b : String × ℚ) : Prop := b.2 ≤ a.2

instance : DecidableRel rdesc :=
  fun a b => inferInstanceAs (Decidable (b.2 ≤ a.2))

instance : IsTotal (String × ℚ) rdesc :=
  ⟨fun a b => le_total b.2 a.2⟩

instance : IsTrans (String × ℚ) rdesc :=
  ⟨fun _ _ _ h1 h2 => le_trans h2 h1⟩

/-- Every flat column scored against one token, in candidate order — the
scoring pass of `process.extract`. -/
def rankPairs (flat : List String) (tok : List Char) : List (String × ℚ) :=
  flat.map (fun cand => (cand, pRatio tok cand.toList))

/-- Model of `process.extract(tok, flat, scorer=fuzz.partial_ratio, limit)`: the
`limit` best-scoring candidates, stably ordered by descending score (ties
keep candidate order). -/
def extractTop (flat : List String) (tok : List Char) (limit : Nat) :
    List (String × ℚ) :=
  (List.insertionSort rdesc (rankPairs flat tok)).take limit

/-- Model of `best[cand] = max(best.get(cand, 0), score)` (router.py line 55) on the
insertion-ordered dict model. -/
def updBest (m : List (String × ℚ)) (cand : String) (score : ℚ) :
    List (String × ℚ) :=
  if m.any (fun p => p.1 == cand) then
    m.map (fun p => if p.1 == cand then (p.1, rmax p.2 score) else p)
  else m ++ [(cand, rmax 0 score)]

/-- Process one token of `_fuzzy_suggest`: extract the top 20 candidates
and keep the best score of each candidate scoring at least 65
(router.py lines 47-55). -/
def stepToken (flat : List String) (m : List (String × ℚ)) (tok : List Char) :
    List (String × ℚ) :=
  (extractTop flat tok 20).foldl
    (fun m p => if 65 ≤ p.2 then updBest m p.1 p.2 else m) m

/-- The accumulated `best` dict of `_fuzzy_suggest` after all tokens. -/
def bestScores (flat : List String) (text : String) : List (String × ℚ) :=
  (tokensOf text).foldl (stepToken flat) []

/-- Model of `sorted(best, key=best.get, reverse=True)` (router.py line 58): stable
descending sort of the best-score dict. -/
def fuzzySorted (flat : List String) (text : String) : List (String × ℚ) :=
  List.insertionSort rdesc (bestScores flat text)

/-- Model of `_fuzzy_suggest` (router.py lines 42-58): ranked top-`k` candidate
column names for a question text. -/
def _fuzzy_suggest (flat : List String) (text : String) (k : Nat) :
    List String :=
  ((fuzzySorted flat text).map (fun p => p.1)).take k

/-- Candidate score lookup in the best-score dict model. -/
def lookupScore (c : String) (m : List (String × ℚ)) : Option ℚ :=
  (m.find? (fun p => p.1 == c)).map (fun p => p.2)

/-- The per-token retained entries: top-20 extraction filtered to scores at
least 65. -/
def retainedOf (flat : List String) (tok : List Char) : List (String × ℚ) :=
  (extractTop flat tok 20).filter (fun p => decide (65 ≤ p.2))

/-- All retained entries over all tokens, in processing order. -/
def allRetained (flat : List String) (text : String) : List (String × ℚ) :=
  (tokensOf text).flatMap (retainedOf flat)

/-- The scores a candidate contributes through the per-token shortlists. -/
def contribs (flat : List String) (text : String) (cand : String) : List ℚ :=
  ((allRetained flat text).filter (fun p => p.1 == cand)).map (fun p => p.2)

/-- Running maximum with the dict-entry seeding of `updBest`. -/
def foldMax (o : Option ℚ) (vs : List ℚ) : Option ℚ :=
  vs.foldl
    (fun acc s =>
      match acc with
      | some a => some (rmax a s)
      | none => some (rmax 0 s)) o

/-- A schema with 20 tables whose column contains token `abcdp` exactly,
plus one table `u` whose column overlaps both test tokens. -/
def linesManyTables : List String :=
  ["### t01", "abcdp:", "### t02", "abcdp:", "### t03", "abcdp:",
   "### t04", "abcdp:", "### t05", "abcdp:", "### t06", "abcdp:",
   "### t07", "abcdp:", "### t08", "abcdp:", "### t09", "abcdp:",
   "### t10", "abcdp:", "### t11", "abcdp:", "### t12", "abcdp:",
   "### t13", "abcdp:", "### t14", "abcdp:", "### t15", "abcdp:",
   "### t16", "abcdp:", "### t17", "abcdp:", "### t18", "abcdp:",
   "### t19", "abcdp:", "### t20", "abcdp:", "### u", "wxyzabcd:"]

/-- The 21-entry flat column list of `linesManyTables`. -/
def flatManyTables : List String :=
  flatColumns (_parse_db_description linesManyTables)

/-! Theorems -/

/-- Unfolding lemma for `reconcile`, with its `let`-bindings expanded. -/
theorem reconcile_def (flat : List String) (route : String)
    (original_suggestions hints : List String) :
    reconcile flat route original_suggestions hints =
      if route = "clarify" then []
      else if (validOf flat original_suggestions).length < 3 then
        validOf flat original_suggestions ++
          (hints.filter
              (fun s => decide (s ∈ flat) &&
                !(decide (s ∈ validOf flat original_suggestions)))).take
            (3 - (validOf flat original_suggestions).length)
      else validOf flat original_suggestions := rfl

/-- C1: every entry of the `suggestions` field produced by the
reconciliation step of `decide_route` is a member of the schema index's
flat column list, for every raw oracle route, every raw suggestion list and
every hint list. -/
theorem reconcile_suggestions_subset_flat
    (flat : List String) (route : String)
    (original_suggestions hints : List String) (s : String)
    (hs : s ∈ reconcile flat route original_suggestions hints) : s ∈ flat := by
  unfold reconcile validOf at hs
  dsimp only at hs
  split at hs
  · simp at hs
  · split at hs
    · rcases List.mem_append.mp hs with h | h
      · exact of_decide_eq_true (List.mem_filter.mp h).2
      · have h' := List.mem_of_mem_take h
        have h2 := (List.mem_filter.mp h').2
        have h3 := (Bool.and_eq_true _ _).mp h2
        exact of_decide_eq_true h3.1
    · exact of_decide_eq_true (List.mem_filter.mp hs).2

/-- C1 witness: at a concrete input, the reconciled suggestion is indeed in
the flat list. -/
theorem reconcile_suggestions_subset_flat_witness :
    "t.a" ∈ ["t.a", "t.b"] :=
  reconcile_suggestions_subset_flat ["t.a", "t.b"] "sql_query" ["t.a"] [] "t.a"
    (by decide)

/-- C2: a raw decision with route `"clarify"` is reconciled to an empty
`suggestions` list, whatever the raw suggestions and the hints were. -/
theorem reconcile_clarify_empty (flat : List String)
    (original_suggestions hints : List String) :
    reconcile flat "clarify" original_suggestions hints = [] := by
  unfold reconcile
  simp

/-- C3: with route `"sql_query"` and fewer than 3 schema-valid oracle
suggestions, the reconciler appends the hints that are not already present,
in hint order, truncated so the list stops at 3 entries or when the hints
run out; whenever some hint is not already among the surviving suggestions,
the reconciled count strictly exceeds the surviving count.  The hints are
assumed schema-valid, as the hint list of `decide_route` always is (see
`fuzzy_suggest_mem_flat`). -/
theorem reconcile_backfill (flat : List String)
    (original_suggestions hints : List String)
    (hsub : ∀ h ∈ hints, h ∈ flat)
    (hlt : (validOf flat original_suggestions).length < 3) :
    reconcile flat "sql_query" original_suggestions hints =
      validOf flat original_suggestions ++
        (hints.filter
            (fun h => !(decide (h ∈ validOf flat original_suggestions)))).take
          (3 - (validOf flat original_suggestions).length) ∧
    ((∃ h ∈ hints, h ∉ validOf flat original_suggestions) →
      (validOf flat original_suggestions).length <
        (reconcile flat "sql_query" original_suggestions hints).length) ∧
    (reconcile flat "sql_query" original_suggestions hints).length =
      min 3 ((validOf flat original_suggestions).length +
        (hints.filter
          (fun h => !(decide (h ∈ validOf flat original_suggestions)))).length) := by
  have hfilter :
      hints.filter
          (fun s => decide (s ∈ flat) &&
            !(decide (s ∈ validOf flat original_suggestions))) =
        hints.filter
          (fun h => !(decide (h ∈ validOf flat original_suggestions))) := by
    apply List.filter_congr
    intro x hx
    rw [decide_eq_true (hsub x hx), Bool.true_and]
  have hmain :
      reconcile flat "sql_query" original_suggestions hints =
        validOf flat original_suggestions ++
          (hints.filter
              (fun h => !(decide (h ∈ validOf flat original_suggestions)))).take
            (3 - (validOf flat original_suggestions).length) := by
    rw [reconcile_def, if_neg (by decide : ¬ ("sql_query" = "clarify")),
      if_pos hlt, hfilter]
  refine ⟨hmain, ?_, ?_⟩
  · rintro ⟨h, hh, hnv⟩
    have hmem : h ∈ hints.filter
        (fun h => !(decide (h ∈ validOf flat original_suggestions))) := by
      rw [List.mem_filter]
      exact ⟨hh, by simpa using hnv⟩
    have hpos : 0 <
        (hints.filter
          (fun h => !(decide (h ∈ validOf flat original_suggestions)))).length :=
      List.length_pos.mpr (List.ne_nil_of_mem hmem)
    rw [hmain, List.length_append, List.length_take]
    omega
  · rw [hmain, List.length_append, List.length_take]
    omega

/-- C3 witness: concrete backfill — one valid oracle suggestion, two fresh
hints, reconciled to three entries, strictly more than survived. -/
theorem reconcile_backfill_witness :
    reconcile ["t.a", "t.b", "t.c", "t.d"] "sql_query" ["t.a", "x.y"]
        ["t.b", "t.a", "t.c"] =
      ["t.a"] ++ ["t.b", "t.c"].take 2 ∧
    (validOf ["t.a", "t.b", "t.c", "t.d"] ["t.a", "x.y"]).length <
      (reconcile ["t.a", "t.b", "t.c", "t.d"] "sql_query" ["t.a", "x.y"]
        ["t.b", "t.a", "t.c"]).length := by
  have h := reconcile_backfill ["t.a", "t.b", "t.c", "t.d"] ["t.a", "x.y"]
    ["t.b", "t.a", "t.c"] (by decide) (by decide)
  refine ⟨?_, h.2.1 ⟨"t.b", by decide, by decide⟩⟩
  rw [h.1]
  decide

/-- C10: the validity filter of the reconciliation step does not
deduplicate — every occurrence of a schema-valid suggestion survives it,
and (route `"sql_query"`, suggestion present at least once) the final list
carries exactly the original number of occurrences, since only the backfill
step skips entries already present. -/
theorem reconcile_preserves_duplicate_suggestions (flat : List String)
    (original_suggestions hints : List String) (s : String) (hsf : s ∈ flat) :
    (validOf flat original_suggestions).count s = original_suggestions.count s ∧
    (1 ≤ original_suggestions.count s →
      (reconcile flat "sql_query" original_suggestions hints).count s =
        original_suggestions.count s) := by
  have hvalid :
      (validOf flat original_suggestions).count s =
        original_suggestions.count s := by
    unfold validOf
    induction original_suggestions with
    | nil => rfl
    | cons a l ih =>
      by_cases hae : a = s
      · subst hae
        rw [List.filter_cons, if_pos (by simpa using hsf)]
        simp [List.count_cons, ih]
      · rw [List.filter_cons]
        split
        · simp [List.count_cons, hae, ih]
        · simp [List.count_cons, hae, ih]
  refine ⟨hvalid, fun hone => ?_⟩
  have hsv : s ∈ validOf flat original_suggestions := by
    have : 1 ≤ (validOf flat original_suggestions).count s := hvalid ▸ hone
    exact List.count_pos_iff.mp this
  rw [reconcile_def, if_neg (by decide : ¬ ("sql_query" = "clarify"))]
  split
  · rw [List.count_append]
    have htake :
        ((hints.filter
            (fun h => decide (h ∈ flat) &&
              !(decide (h ∈ validOf flat original_suggestions)))).take
          (3 - (validOf flat original_suggestions).length)).count s = 0 := by
      rw [List.count_eq_zero]
      intro hmem
      have h1 := List.mem_of_mem_take hmem
      have h2 := (List.mem_filter.mp h1).2
      have h3 := (Bool.and_eq_true _ _).mp h2
      exact (by simpa using h3.2 : s ∉ validOf flat original_suggestions) hsv
    rw [htake, hvalid]
    omega
  · exact hvalid

/-- C10 witness: a duplicated valid suggestion appears twice in the output;
backfill does not add a third copy. -/
theorem reconcile_preserves_duplicate_suggestions_witness :
    (validOf ["t.a", "t.b"] ["t.a", "t.a", "x.y"]).count "t.a" =
      (["t.a", "t.a", "x.y"] : List String).count "t.a" ∧
    (reconcile ["t.a", "t.b"] "sql_query" ["t.a", "t.a", "x.y"]
        ["t.a", "t.b"]).count "t.a" =
      (["t.a", "t.a", "x.y"] : List String).count "t.a" := by
  have h := reconcile_preserves_duplicate_suggestions ["t.a", "t.b"]
    ["t.a", "t.a", "x.y"] ["t.a", "t.b"] "t.a" (by decide)
  exact ⟨h.1, h.2 (by decide)⟩

theorem addColumns_nil (m : List (String × List String)) (t : String) :
    addColumns m t [] = m := by
  unfold addColumns
  have h : ∀ p : String × List String,
      (if p.1 == t then (p.1, p.2 ++ ([] : List String)) else p) = p := by
    intro p
    split <;> simp
  simp only [h, List.map_id']

theorem addColumns_absent (m : List (String × List String)) (t : String)
    (cs : List String) (h : ∀ p ∈ m, p.1 ≠ t) : addColumns m t cs = m := by
  unfold addColumns
  induction m with
  | nil => rfl
  | cons p m ih =>
    rw [List.map_cons, ih (fun q hq => h q (List.mem_cons_of_mem p hq))]
    rw [if_neg (by simpa using h p (List.mem_cons_self p m))]

theorem addColumns_addColumn (m : List (String × List String)) (t : String)
    (c : String) (cs : List String) :
    addColumns (addColumn m t c) t cs = addColumns m t (c :: cs) := by
  unfold addColumns addColumn
  rw [List.map_map]
  apply List.map_congr_left
  intro p _
  by_cases h : p.1 = t
  · simp [h]
  · simp [h]

theorem addColumns_append_entry (m : List (String × List String)) (t : String)
    (v cs : List String) :
    addColumns (m ++ [(t, v)]) t cs = addColumns m t cs ++ [(t, v ++ cs)] := by
  unfold addColumns
  rw [List.map_append]
  simp

theorem setTable_absent (m : List (String × List String)) (t : String)
    (h : ∀ p ∈ m, p.1 ≠ t) : setTable m t = m ++ [(t, [])] := by
  unfold setTable
  rw [if_neg]
  simp only [List.any_eq_true]
  rintro ⟨p, hp, hpt⟩
  exact h p hp (by simpa using hpt)

/-- The parser invariant: folding the loop body over `lines` whose headings
are all distinct and fresh for the accumulated schema appends the
spec-side tables, after the pending segment's columns are attached to the
active table. -/
theorem foldl_pstep_spec : ∀ (lines : List String) (s : PState),
    (headings lines).Nodup →
    (∀ t ∈ headings lines, ∀ p ∈ s.schema, p.1 ≠ t) →
    (lines.foldl pstep s).schema =
      (match s.current with
        | some t => addColumns s.schema t (segCols lines)
        | none => s.schema) ++ specTables lines
  | [], s, _, _ => by
    cases hc : s.current <;> simp [specTables, segCols, hc, addColumns_nil]
  | l :: ls, s, hnd, hfresh => by
    rw [List.foldl_cons]
    cases hm : matchTable l with
    | some T =>
      have hheads : headings (l :: ls) = T :: headings ls := by
        simp [headings, List.filterMap_cons, hm]
      rw [hheads] at hnd hfresh
      have hndtl := hnd.of_cons
      have hTnotin : T ∉ headings ls := (List.nodup_cons.mp hnd).1
      have hTfresh : ∀ p ∈ s.schema, p.1 ≠ T :=
        hfresh T (List.mem_cons_self _ _)
      have hstep : pstep s l = ⟨s.schema ++ [(T, [])], some T⟩ := by
        simp [pstep, hm, setTable_absent s.schema T hTfresh]
      rw [hstep]
      have hfresh' : ∀ t ∈ headings ls,
          ∀ p ∈ s.schema ++ [(T, [])], p.1 ≠ t := by
        intro t ht p hp
        rcases List.mem_append.mp hp with h | h
        · exact hfresh t (List.mem_cons_of_mem _ ht) p h
        · have hpT : p = (T, []) := by simpa using h
          rw [hpT]
          intro hTt
          have hTt' : T = t := hTt
          subst hTt'
          exact hTnotin ht
      rw [foldl_pstep_spec ls ⟨s.schema ++ [(T, [])], some T⟩ hndtl hfresh']
      have hspec : specTables (l :: ls) = (T, segCols ls) :: specTables ls := by
        simp [specTables, hm]
      have hmatch : (match s.current with
          | some t => addColumns s.schema t (segCols (l :: ls))
          | none => s.schema) = s.schema := by
        cases s.current <;> simp [segCols, hm, addColumns_nil]
      rw [hspec, hmatch]
      dsimp only
      rw [addColumns_append_entry, addColumns_absent s.schema T _ hTfresh]
      simp
    | none =>
      have hheads : headings (l :: ls) = headings ls := by
        simp [headings, List.filterMap_cons, hm]
      rw [hheads] at hnd hfresh
      cases hc : s.current with
      | none =>
        have hstep : pstep s l = s := by
          simp [pstep, hm, hc]
        rw [hstep, foldl_pstep_spec ls s hnd hfresh, hc]
        simp [specTables, hm]
      | some u =>
        cases hcol : matchColumn l with
        | some c =>
          have hstep : pstep s l = ⟨addColumn s.schema u c, some u⟩ := by
            simp [pstep, hm, hc, hcol]
          rw [hstep]
          have hfresh' : ∀ t ∈ headings ls,
              ∀ p ∈ addColumn s.schema u c, p.1 ≠ t := by
            intro t ht p hp
            unfold addColumn at hp
            rcases List.mem_map.mp hp with ⟨q, hq, hqp⟩
            have : p.1 = q.1 := by
              rw [← hqp]
              split <;> simp_all
            rw [this]
            exact hfresh t ht q hq
          rw [foldl_pstep_spec ls ⟨addColumn s.schema u c, some u⟩ hnd hfresh']
          dsimp only
          rw [addColumns_addColumn]
          have hseg : segCols (l :: ls) = c :: segCols ls := by
            simp [segCols, hm, hcol]
          rw [hseg]
          simp [specTables, hm]
        | none =>
          have hstep : pstep s l = s := by
            simp [pstep, hm, hc, hcol]
          rw [hstep, foldl_pstep_spec ls s hnd hfresh, hc]
          have hseg : segCols (l :: ls) = segCols ls := by
            simp [segCols, hm, hcol]
          simp [specTables, hm, hseg, hc]

/-- C4: for a schema text whose table headings are pairwise distinct, the
flat column list equals the concatenation of `table.column` strings over
tables in order of appearance and, within each table, over column lines in
declaration order — duplicate columns kept, column lines before any
heading dropped (both visible in the definition of `specTables`). -/
theorem flatColumns_round_trip (lines : List String)
    (hnd : (headings lines).Nodup) :
    flatColumns (_parse_db_description lines) = specFlat lines := by
  unfold _parse_db_description specFlat
  rw [foldl_pstep_spec lines ⟨[], none⟩ hnd (by intro t _ p hp; cases hp)]
  rfl

/-- C4 witness: a concrete schema text exercising lowercasing, the hyphen
markers, a duplicated column and a dropped pre-heading column line. -/
theorem flatColumns_round_trip_witness :
    flatColumns
        (_parse_db_description
          ["x:", "### T1", "a:", "a:", " - b: int", "### T2", "c:"]) =
      specFlat ["x:", "### T1", "a:", "a:", " - b: int", "### T2", "c:"] ∧
    specFlat ["x:", "### T1", "a:", "a:", " - b: int", "### T2", "c:"] =
      ["t1.a", "t1.a", "t1.b", "t2.c"] := by
  refine ⟨flatColumns_round_trip _ (by decide), by decide⟩

theorem foldl_pstep_no_headings : ∀ (lines : List String)
    (m : List (String × List String)),
    (∀ l ∈ lines, matchTable l = none) →
    lines.foldl pstep ⟨m, none⟩ = ⟨m, none⟩
  | [], _, _ => rfl
  | l :: ls, m, h => by
    rw [List.foldl_cons]
    have hstep : pstep ⟨m, none⟩ l = ⟨m, none⟩ := by
      simp [pstep, h l (List.mem_cons_self l ls)]
    rw [hstep]
    exact foldl_pstep_no_headings ls m
      (fun l' hl' => h l' (List.mem_cons_of_mem l hl'))

/-- C8: the index builder fails only on unreadable input; every readable
schema text — including one with no recognized table heading, which yields
the empty index — is parsed without error, malformed lines being skipped
by the loop. -/
theorem buildSchemaIndex_total (lines : List String) :
    buildSchemaIndex (some lines) = .ok (_parse_db_description lines) ∧
    buildSchemaIndex none = .error "SchemaParseError" ∧
    ((∀ l ∈ lines, matchTable l = none) → _parse_db_description lines = []) := by
  refine ⟨rfl, rfl, fun h => ?_⟩
  unfold _parse_db_description
  rw [foldl_pstep_no_headings lines [] h]

/-- C8 witness: a schema text with zero recognized tables parses to the
empty index. -/
theorem buildSchemaIndex_total_witness :
    buildSchemaIndex (some ["junk line", "a:", "## not a heading"]) =
      .ok (_parse_db_description ["junk line", "a:", "## not a heading"]) ∧
    _parse_db_description ["junk line", "a:", "## not a heading"] = [] := by
  have h := buildSchemaIndex_total ["junk line", "a:", "## not a heading"]
  exact ⟨h.1, h.2.2 (by decide)⟩

theorem lookupKey_cons_pos (p : String × List String)
    (m : List (String × List String)) (t : String)
    (h : (p.1 == t) = true) : lookupKey t (p :: m) = some p.2 := by
  simp [lookupKey, List.find?_cons, h]

theorem lookupKey_cons_neg (p : String × List String)
    (m : List (String × List String)) (t : String)
    (h : (p.1 == t) = false) : lookupKey t (p :: m) = lookupKey t m := by
  simp [lookupKey, List.find?_cons, h]

theorem lookup_map_set_pos (t : String) :
    ∀ m : List (String × List String),
    m.any (fun p => p.1 == t) = true →
    lookupKey t
      (m.map (fun p => if p.1 == t then (t, ([] : List String)) else p)) =
      some []
  | p :: m, h => by
    rw [List.map_cons]
    by_cases hpt : (p.1 == t) = true
    · rw [if_pos hpt]
      exact lookupKey_cons_pos _ _ _ (by simp)
    · rw [if_neg hpt, lookupKey_cons_neg _ _ _ (by simpa using hpt)]
      have hm : m.any (fun p => p.1 == t) = true := by
        rcases List.any_eq_true.mp h with ⟨q, hq, hqt⟩
        rcases List.mem_cons.mp hq with rfl | hq'
        · exact absurd hqt hpt
        · exact List.any_eq_true.mpr ⟨q, hq', hqt⟩
      exact lookup_map_set_pos t m hm

theorem lookup_map_set_other (t u : String) (hne : u ≠ t) :
    ∀ m : List (String × List String),
    lookupKey t
      (m.map (fun p => if p.1 == u then (u, ([] : List String)) else p)) =
      lookupKey t m
  | [] => rfl
  | p :: m => by
    rw [List.map_cons]
    by_cases hpu : (p.1 == u) = true
    · have hpt : (p.1 == t) = false := by
        have : p.1 = u := by simpa using hpu
        simp [this, hne]
      rw [if_pos hpu,
        lookupKey_cons_neg _ _ _ (by simp [hne]),
        lookupKey_cons_neg _ _ _ hpt]
      exact lookup_map_set_other t u hne m
    · rw [if_neg hpu]
      by_cases hpt : (p.1 == t) = true
      · rw [lookupKey_cons_pos _ _ _ hpt, lookupKey_cons_pos _ _ _ hpt]
      · rw [lookupKey_cons_neg _ _ _ (by simpa using hpt),
          lookupKey_cons_neg _ _ _ (by simpa using hpt)]
        exact lookup_map_set_other t u hne m

theorem lookup_append_single_other (t u : String) (hne : u ≠ t)
    (v : List String) :
    ∀ m : List (String × List String),
    lookupKey t (m ++ [(u, v)]) = lookupKey t m
  | [] => by
    rw [List.nil_append, lookupKey_cons_neg _ _ _ (by simp [hne])]
  | p :: m => by
    rw [List.cons_append]
    by_cases hpt : (p.1 == t) = true
    · rw [lookupKey_cons_pos _ _ _ hpt, lookupKey_cons_pos _ _ _ hpt]
    · rw [lookupKey_cons_neg _ _ _ (by simpa using hpt),
        lookupKey_cons_neg _ _ _ (by simpa using hpt)]
      exact lookup_append_single_other t u hne v m

theorem lookup_append_self (t : String) (v : List String) :
    ∀ m : List (String × List String),
    (∀ p ∈ m, (p.1 == t) = false) → lookupKey t (m ++ [(t, v)]) = some v
  | [], _ => by
    rw [List.nil_append]
    exact lookupKey_cons_pos _ _ _ (by simp)
  | p :: m, hall => by
    rw [List.cons_append,
      lookupKey_cons_neg _ _ _ (hall p (List.mem_cons_self p m))]
    exact lookup_append_self t v m
      (fun q hq => hall q (List.mem_cons_of_mem p hq))

theorem lookup_setTable_self (m : List (String × List String)) (t : String) :
    lookupKey t (setTable m t) = some [] := by
  unfold setTable
  split
  case isTrue h => exact lookup_map_set_pos t m h
  case isFalse h =>
    refine lookup_append_self t [] m ?_
    intro p hp
    cases hb : (p.1 == t) with
    | true => exact absurd (List.any_eq_true.mpr ⟨p, hp, hb⟩) h
    | false => rfl

theorem lookup_setTable_other (m : List (String × List String))
    (t u : String) (hne : u ≠ t) :
    lookupKey t (setTable m u) = lookupKey t m := by
  unfold setTable
  split
  · exact lookup_map_set_other t u hne m
  · exact lookup_append_single_other t u hne [] m

theorem lookup_addColumn_self : ∀ (m : List (String × List String))
    (t c : String),
    lookupKey t (addColumn m t c) = (lookupKey t m).map (fun v => v ++ [c])
  | [], _, _ => rfl
  | p :: m, t, c => by
    unfold addColumn
    rw [List.map_cons]
    by_cases hpt : (p.1 == t) = true
    · rw [if_pos hpt, lookupKey_cons_pos _ _ _ hpt,
        lookupKey_cons_pos (p.1, p.2 ++ [c]) _ _ hpt]
      rfl
    · rw [if_neg hpt, lookupKey_cons_neg _ _ _ (by simpa using hpt),
        lookupKey_cons_neg _ _ _ (by simpa using hpt)]
      exact lookup_addColumn_self m t c

theorem lookup_addColumn_other : ∀ (m : List (String × List String))
    (t u c : String), u ≠ t →
    lookupKey t (addColumn m u c) = lookupKey t m
  | [], _, _, _, _ => rfl
  | p :: m, t, u, c, hne => by
    unfold addColumn
    rw [List.map_cons]
    by_cases hpu : (p.1 == u) = true
    · have hpt : (p.1 == t) = false := by
        have : p.1 = u := by simpa using hpu
        simp [this, hne]
      rw [if_pos hpu, lookupKey_cons_neg (p.1, p.2 ++ [c]) _ _ hpt,
        lookupKey_cons_neg _ _ _ hpt]
      exact lookup_addColumn_other m t u c hne
    · rw [if_neg hpu]
      by_cases hpt : (p.1 == t) = true
      · rw [lookupKey_cons_pos _ _ _ hpt, lookupKey_cons_pos _ _ _ hpt]
      · rw [lookupKey_cons_neg _ _ _ (by simpa using hpt),
          lookupKey_cons_neg _ _ _ (by simpa using hpt)]
        exact lookup_addColumn_other m t u c hne

theorem lookup_foldl_keep : ∀ (L : List String) (s : PState) (T : String),
    (∀ l ∈ L, matchTable l ≠ some T) → s.current ≠ some T →
    lookupKey T ((L.foldl pstep s).schema) = lookupKey T s.schema
  | [], _, _, _, _ => rfl
  | l :: L', s, T, hL, hcur => by
    rw [List.foldl_cons]
    have hLtl : ∀ l' ∈ L', matchTable l' ≠ some T :=
      fun l' hl' => hL l' (List.mem_cons_of_mem l hl')
    cases hm : matchTable l with
    | some U =>
      have hUT : U ≠ T := by
        intro h
        exact hL l (List.mem_cons_self l L') (h ▸ hm)
      have hstep : pstep s l = ⟨setTable s.schema U, some U⟩ := by
        simp [pstep, hm]
      rw [hstep,
        lookup_foldl_keep L' ⟨setTable s.schema U, some U⟩ T hLtl
          (by simpa using hUT)]
      exact lookup_setTable_other s.schema T U hUT
    | none =>
      cases hc : s.current with
      | none =>
        have hstep : pstep s l = s := by simp [pstep, hm, hc]
        rw [hstep]
        exact lookup_foldl_keep L' s T hLtl hcur
      | some u =>
        have huT : u ≠ T := by
          intro h
          exact hcur (by rw [hc, h])
        cases hcol : matchColumn l with
        | some c =>
          have hstep : pstep s l = ⟨addColumn s.schema u c, s.current⟩ := by
            simp [pstep, hm, hc, hcol]
          rw [hstep,
            lookup_foldl_keep L' ⟨addColumn s.schema u c, s.current⟩ T hLtl
              hcur]
          exact lookup_addColumn_other s.schema T u c huT
        | none =>
          have hstep : pstep s l = s := by simp [pstep, hm, hc, hcol]
          rw [hstep]
          exact lookup_foldl_keep L' s T hLtl hcur

theorem lookup_foldl_collect : ∀ (L : List String) (s : PState) (T : String)
    (v : List String),
    (∀ l ∈ L, matchTable l ≠ some T) → s.current = some T →
    lookupKey T s.schema = some v →
    lookupKey T ((L.foldl pstep s).schema) = some (v ++ segCols L)
  | [], s, T, v, _, _, hv => by simpa [segCols] using hv
  | l :: L', s, T, v, hL, hcur, hv => by
    rw [List.foldl_cons]
    have hLtl : ∀ l' ∈ L', matchTable l' ≠ some T :=
      fun l' hl' => hL l' (List.mem_cons_of_mem l hl')
    cases hm : matchTable l with
    | some U =>
      have hUT : U ≠ T := by
        intro h
        exact hL l (List.mem_cons_self l L') (h ▸ hm)
      have hstep : pstep s l = ⟨setTable s.schema U, some U⟩ := by
        simp [pstep, hm]
      have hseg : segCols (l :: L') = [] := by simp [segCols, hm]
      rw [hstep, hseg, List.append_nil,
        lookup_foldl_keep L' ⟨setTable s.schema U, some U⟩ T hLtl
          (by simpa using hUT)]
      rw [lookup_setTable_other s.schema T U hUT]
      exact hv
    | none =>
      cases hcol : matchColumn l with
      | some c =>
        have hstep : pstep s l = ⟨addColumn s.schema T c, some T⟩ := by
          simp [pstep, hm, hcur, hcol]
        have hseg : segCols (l :: L') = c :: segCols L' := by
          simp [segCols, hm, hcol]
        rw [hstep, hseg]
        have hv' : lookupKey T (addColumn s.schema T c) = some (v ++ [c]) := by
          rw [lookup_addColumn_self, hv]
          rfl
        have := lookup_foldl_collect L' ⟨addColumn s.schema T c, some T⟩ T
          (v ++ [c]) hLtl rfl hv'
        rw [this, List.append_assoc]
        rfl
      | none =>
        have hstep : pstep s l = s := by
          simp [pstep, hm, hcur, hcol]
        have hseg : segCols (l :: L') = segCols L' := by
          simp [segCols, hm, hcol]
        rw [hstep, hseg]
        exact lookup_foldl_collect L' s T v hLtl hcur hv

theorem keys_addColumn (m : List (String × List String)) (t c : String) :
    (addColumn m t c).map (fun p => p.1) = m.map (fun p => p.1) := by
  unfold addColumn
  rw [List.map_map]
  apply List.map_congr_left
  intro p _
  by_cases h : p.1 = t
  · simp [h]
  · simp [h]

theorem keys_setTable_mem (m : List (String × List String)) (t : String)
    (h : t ∈ m.map (fun p => p.1)) :
    (setTable m t).map (fun p => p.1) = m.map (fun p => p.1) := by
  unfold setTable
  rw [if_pos]
  · rw [List.map_map]
    apply List.map_congr_left
    intro p _
    by_cases hpt : p.1 = t
    · simp [hpt]
    · simp [hpt]
  · rcases List.mem_map.mp h with ⟨p, hp, hpt⟩
    exact List.any_eq_true.mpr ⟨p, hp, by simpa using hpt⟩

theorem keys_setTable_not_mem (m : List (String × List String)) (t : String)
    (h : t ∉ m.map (fun p => p.1)) :
    (setTable m t).map (fun p => p.1) = m.map (fun p => p.1) ++ [t] := by
  unfold setTable
  rw [if_neg]
  · simp
  · intro hany
    rcases List.any_eq_true.mp hany with ⟨p, hp, hpt⟩
    exact h (List.mem_map.mpr ⟨p, hp, by simpa using hpt⟩)

theorem keys_foldl : ∀ (L : List String) (s : PState),
    ((L.foldl pstep s).schema).map (fun p => p.1) =
      s.schema.map (fun p => p.1) ++
        dedupFirstAux (s.schema.map (fun p => p.1)) (headings L)
  | [], s => by simp [headings, dedupFirstAux]
  | l :: L', s => by
    rw [List.foldl_cons]
    cases hm : matchTable l with
    | some T =>
      have hheads : headings (l :: L') = T :: headings L' := by
        simp [headings, List.filterMap_cons, hm]
      have hstep : pstep s l = ⟨setTable s.schema T, some T⟩ := by
        simp [pstep, hm]
      rw [hstep, hheads, keys_foldl L' ⟨setTable s.schema T, some T⟩]
      by_cases hmem : T ∈ s.schema.map (fun p => p.1)
      · rw [keys_setTable_mem s.schema T hmem]
        rw [dedupFirstAux, if_pos hmem]
      · rw [keys_setTable_not_mem s.schema T hmem]
        rw [dedupFirstAux, if_neg hmem, List.append_assoc]
        rfl
    | none =>
      have hheads : headings (l :: L') = headings L' := by
        simp [headings, List.filterMap_cons, hm]
      rw [hheads]
      cases hc : s.current with
      | none =>
        have hstep : pstep s l = s := by simp [pstep, hm, hc]
        rw [hstep, keys_foldl L' s]
      | some u =>
        cases hcol : matchColumn l with
        | some c =>
          have hstep : pstep s l = ⟨addColumn s.schema u c, s.current⟩ := by
            simp [pstep, hm, hc, hcol]
          rw [hstep, keys_foldl L' ⟨addColumn s.schema u c, s.current⟩]
          dsimp only
          rw [keys_addColumn]
        | none =>
          have hstep : pstep s l = s := by simp [pstep, hm, hc, hcol]
          rw [hstep, keys_foldl L' s]

theorem dedupFirstAux_skip : ∀ (hs1 seen : List String) (T : String)
    (hs2 : List String), T ∈ seen ∨ T ∈ hs1 →
    dedupFirstAux seen (hs1 ++ T :: hs2) = dedupFirstAux seen (hs1 ++ hs2)
  | [], seen, T, hs2, h => by
    have hTseen : T ∈ seen := by
      rcases h with h | h
      · exact h
      · cases h
    rw [List.nil_append, List.nil_append, dedupFirstAux, if_pos hTseen]
  | x :: hs1', seen, T, hs2, h => by
    have h' : ∀ s' : List String, x ∈ s' → seen ⊆ s' →
        T ∈ s' ∨ T ∈ hs1' := by
      intro s' hx hsub
      rcases h with h | h
      · exact Or.inl (hsub h)
      · rcases List.mem_cons.mp h with rfl | h
        · exact Or.inl hx
        · exact Or.inr h
    rw [List.cons_append, List.cons_append, dedupFirstAux, dedupFirstAux]
    by_cases hx : x ∈ seen
    · rw [if_pos hx, if_pos hx]
      exact dedupFirstAux_skip hs1' seen T hs2
        (h' seen hx (fun _ hz => hz))
    · rw [if_neg hx, if_neg hx,
        dedupFirstAux_skip hs1' (seen ++ [x]) T hs2
          (h' (seen ++ [x]) (by simp) (fun _ hz => List.mem_append_left _ hz))]

/-- C9: when a table heading repeats, the parser resets the table's column
list at the later heading: only the columns of the segment after the last
occurrence survive, while the table keeps the key position of its first
appearance (the key list equals the first-occurrence deduplication of the
heading list, unchanged by dropping the repeated heading). -/
theorem parse_reheading_resets (L1 : List String) (l : String)
    (L2 : List String) (T : String) (hl : matchTable l = some T)
    (hfirst : ∃ l1 ∈ L1, matchTable l1 = some T)
    (hlast : ∀ l2 ∈ L2, matchTable l2 ≠ some T) :
    lookupKey T (_parse_db_description (L1 ++ l :: L2)) = some (segCols L2) ∧
    (_parse_db_description (L1 ++ l :: L2)).map (fun p => p.1) =
      dedupFirst (headings (L1 ++ l :: L2)) ∧
    dedupFirst (headings (L1 ++ l :: L2)) = dedupFirst (headings (L1 ++ L2)) := by
  refine ⟨?_, ?_, ?_⟩
  · unfold _parse_db_description
    rw [List.foldl_append, List.foldl_cons]
    set s1 := L1.foldl pstep ⟨[], none⟩ with hs1
    have hstep : pstep s1 l = ⟨setTable s1.schema T, some T⟩ := by
      simp [pstep, hl]
    rw [hstep]
    have := lookup_foldl_collect L2 ⟨setTable s1.schema T, some T⟩ T []
      hlast rfl (lookup_setTable_self s1.schema T)
    rw [this]
    rfl
  · unfold _parse_db_description dedupFirst
    rw [keys_foldl (L1 ++ l :: L2) ⟨[], none⟩]
    rfl
  · have hheads1 : headings (L1 ++ l :: L2) =
        headings L1 ++ T :: headings L2 := by
      simp [headings, List.filterMap_append, List.filterMap_cons, hl]
    have hheads2 : headings (L1 ++ L2) = headings L1 ++ headings L2 := by
      simp [headings, List.filterMap_append]
    rcases hfirst with ⟨l1, hl1, hml1⟩
    have hTin : T ∈ headings L1 :=
      List.mem_filterMap.mpr ⟨l1, hl1, hml1⟩
    rw [hheads1, hheads2]
    exact dedupFirstAux_skip (headings L1) [] T (headings L2) (Or.inr hTin)

/-- C9 witness: `t` is declared twice; only the columns after the second
heading survive, and `t` keeps its first position, before `u`. -/
theorem parse_reheading_resets_witness :
    lookupKey "t"
        (_parse_db_description
          ["### t", "a:", "### t", "b:", "### u", "c:"]) =
      some (segCols ["b:", "### u", "c:"]) ∧
    (_parse_db_description
        ["### t", "a:", "### t", "b:", "### u", "c:"]).map (fun p => p.1) =
      dedupFirst (headings ["### t", "a:", "### t", "b:", "### u", "c:"]) ∧
    dedupFirst (headings ["### t", "a:", "### t", "b:", "### u", "c:"]) =
      dedupFirst (headings (["### t", "a:"] ++ ["b:", "### u", "c:"])) :=
  parse_reheading_resets ["### t", "a:"] "### t" ["b:", "### u", "c:"] "t"
    (by decide) ⟨"### t", by decide, by decide⟩ (by decide)

theorem foldl_updBest_skip : ∀ (ps : List (String × ℚ))
    (m : List (String × ℚ)), (∀ p ∈ ps, ¬ (65 ≤ p.2)) →
    ps.foldl (fun m p => if 65 ≤ p.2 then updBest m p.1 p.2 else m) m = m
  | [], _, _ => rfl
  | p :: ps, m, h => by
    rw [List.foldl_cons, if_neg (h p (List.mem_cons_self p ps))]
    exact foldl_updBest_skip ps m (fun q hq => h q (List.mem_cons_of_mem p hq))

theorem extractTop_mem_score (flat : List String) (tok : List Char)
    (limit : Nat) (p : String × ℚ) (hp : p ∈ extractTop flat tok limit) :
    p.1 ∈ flat ∧ p.2 = pRatio tok p.1.toList := by
  have hp1 := List.mem_of_mem_take hp
  have hp2 := (List.mem_insertionSort rdesc).mp hp1
  rcases List.mem_map.mp hp2 with ⟨cand, hcand, hpc⟩
  constructor
  · rw [← hpc]
    exact hcand
  · rw [← hpc]

theorem stepToken_no65 (flat : List String) (m : List (String × ℚ))
    (tok : List Char) (h : ∀ c ∈ flat, pRatio tok c.toList < 65) :
    stepToken flat m tok = m := by
  unfold stepToken
  apply foldl_updBest_skip
  intro p hp
  rcases extractTop_mem_score flat tok 20 p hp with ⟨h1, h2⟩
  rw [h2]
  exact not_le.mpr (h p.1 h1)

theorem foldl_stepToken_nil (flat : List String) : ∀ (toks : List (List Char)),
    (∀ tok ∈ toks, ∀ c ∈ flat, pRatio tok c.toList < 65) →
    toks.foldl (stepToken flat) [] = []
  | [], _ => rfl
  | tok :: toks, h => by
    rw [List.foldl_cons, stepToken_no65 flat [] tok
      (h tok (List.mem_cons_self tok toks))]
    exact foldl_stepToken_nil flat toks
      (fun t ht => h t (List.mem_cons_of_mem tok ht))

theorem foldl_stepToken_empty_flat : ∀ (toks : List (List Char))
    (m : List (String × ℚ)), toks.foldl (stepToken []) m = m
  | [], _ => rfl
  | _ :: toks, m => foldl_stepToken_empty_flat toks m

/-- C7: the fuzzy hint engine returns at most `k` entries; it returns the
empty list when no token scores at least 65 against any flat column, and
in particular always returns the empty list on an empty schema index.  (It
is a total function: it never fails.) -/
theorem fuzzy_suggest_cap (flat : List String) (text : String) (k : Nat) :
    (_fuzzy_suggest flat text k).length ≤ k ∧
    ((∀ tok ∈ tokensOf text, ∀ c ∈ flat, pRatio tok c.toList < 65) →
      _fuzzy_suggest flat text k = []) ∧
    (flat = [] → _fuzzy_suggest flat text k = []) := by
  refine ⟨?_, ?_, ?_⟩
  · exact List.length_take_le k _
  · intro h
    unfold _fuzzy_suggest fuzzySorted bestScores
    rw [foldl_stepToken_nil flat (tokensOf text) h]
    simp [List.insertionSort]
  · intro h
    subst h
    unfold _fuzzy_suggest fuzzySorted bestScores
    rw [foldl_stepToken_empty_flat (tokensOf text) []]
    simp [List.insertionSort]

/-- C7 witness: no token of the text reaches score 65 against the only
column, and the result is empty (and within the cap). -/
theorem fuzzy_suggest_cap_witness :
    (_fuzzy_suggest ["t.aaa"] "zzz qq" 3).length ≤ 3 ∧
    _fuzzy_suggest ["t.aaa"] "zzz qq" 3 = [] := by
  have h := fuzzy_suggest_cap ["t.aaa"] "zzz qq" 3
  exact ⟨h.1, h.2.1 (by decide)⟩

theorem mem_updBest (m : List (String × ℚ)) (c : String) (v : ℚ) :
    ∀ q ∈ updBest m c v, q.1 = c ∨ ∃ p ∈ m, q.1 = p.1 := by
  intro q hq
  unfold updBest at hq
  split at hq
  · rcases List.mem_map.mp hq with ⟨p, hp, hpq⟩
    right
    refine ⟨p, hp, ?_⟩
    rw [← hpq]
    split <;> rfl
  · rcases List.mem_append.mp hq with h | h
    · right
      exact ⟨q, h, rfl⟩
    · left
      have hq' : q = (c, rmax 0 v) := by simpa using h
      rw [hq']

theorem foldl_updBest_keys (flat : List String) :
    ∀ (ps : List (String × ℚ)) (m : List (String × ℚ)),
    (∀ q ∈ m, q.1 ∈ flat) → (∀ p ∈ ps, p.1 ∈ flat) →
    ∀ q ∈ ps.foldl (fun m p => if 65 ≤ p.2 then updBest m p.1 p.2 else m) m,
      q.1 ∈ flat
  | [], m, hm, _, q, hq => hm q hq
  | p :: ps, m, hm, hp, q, hq => by
    rw [List.foldl_cons] at hq
    by_cases h65 : 65 ≤ p.2
    · rw [if_pos h65] at hq
      refine foldl_updBest_keys flat ps (updBest m p.1 p.2) ?_
        (fun r hr => hp r (List.mem_cons_of_mem p hr)) q hq
      intro r hr
      rcases mem_updBest m p.1 p.2 r hr with hc | ⟨p', hp', he⟩
      · rw [hc]
        exact hp p (List.mem_cons_self p ps)
      · rw [he]
        exact hm p' hp'
    · rw [if_neg h65] at hq
      exact foldl_updBest_keys flat ps m hm
        (fun r hr => hp r (List.mem_cons_of_mem p hr)) q hq

theorem foldl_stepToken_keys (flat : List String) :
    ∀ (toks : List (List Char)) (m : List (String × ℚ)),
    (∀ q ∈ m, q.1 ∈ flat) →
    ∀ q ∈ toks.foldl (stepToken flat) m, q.1 ∈ flat
  | [], m, hm, q, hq => hm q hq
  | tok :: toks, m, hm, q, hq => by
    rw [List.foldl_cons] at hq
    refine foldl_stepToken_keys flat toks (stepToken flat m tok) ?_ q hq
    intro r hr
    exact foldl_updBest_keys flat (extractTop flat tok 20) m hm
      (fun p hp => (extractTop_mem_score flat tok 20 p hp).1) r hr

/-- Every hint returned by `_fuzzy_suggest` is a flat column — the fact
that lets `reconcile_backfill` assume schema-valid hints in `decide_route`.
-/
theorem fuzzy_suggest_mem_flat (flat : List String) (text : String) (k : Nat) :
    ∀ s ∈ _fuzzy_suggest flat text k, s ∈ flat := by
  intro s hs
  have h1 := List.mem_of_mem_take hs
  rcases List.mem_map.mp h1 with ⟨q, hq, hqs⟩
  have h2 := (List.mem_insertionSort rdesc).mp hq
  rw [← hqs]
  exact foldl_stepToken_keys flat (tokensOf text) [] (by intro r hr; cases hr)
    q h2

/-- C5 (amended): the returned ranking is sorted by best score in
descending order, and candidates with equal best scores keep their order
in the best-score dict — the order in which they first attained a retained
score (token order in the text, then extract rank), not their flat-list
position; the ranking is still a deterministic function of the inputs. -/
theorem fuzzy_sorted_desc_stable (flat : List String) (text : String) :
    List.Sorted rdesc (fuzzySorted flat text) ∧
    (∀ a b : String × ℚ, List.Sublist [a, b] (bestScores flat text) →
      a.2 = b.2 → List.Sublist [a, b] (fuzzySorted flat text)) := by
  constructor
  · exact List.sorted_insertionSort rdesc (bestScores flat text)
  · intro a b hab heq
    exact List.pair_sublist_insertionSort (le_of_eq heq.symm) hab

/-- C5 witness: the two tied candidates of the counterexample indeed keep
their best-map order in the sorted output. -/
theorem fuzzy_sorted_desc_stable_witness :
    List.Sublist [("ccc.ddd", (100 : ℚ)), ("aaa.bbb", (100 : ℚ))]
      (fuzzySorted ["aaa.bbb", "ccc.ddd"] "ddd bbb") := by
  have h := fuzzy_sorted_desc_stable ["aaa.bbb", "ccc.ddd"] "ddd bbb"
  refine h.2 _ _ ?_ rfl
  have hbs : bestScores ["aaa.bbb", "ccc.ddd"] "ddd bbb" =
      [("ccc.ddd", (100 : ℚ)), ("aaa.bbb", (100 : ℚ))] := by
    set_option maxRecDepth 10000 in decide
  rw [hbs]

/-- C5 counterexample: on schema `aaa(bbb); ccc(ddd)` and text
`"ddd bbb"`, both candidates reach the same maximum score 100 and
`aaa.bbb` is declared first in the flat list, yet the engine returns
`ccc.ddd` first: equal-score ties follow the token processing order, not
the flat-list position, refuting the claimed tie-break. -/
theorem fuzzy_tiebreak_counterexample :
    flatColumns (_parse_db_description
        ["### aaa", "bbb:", "### ccc", "ddd:"]) = ["aaa.bbb", "ccc.ddd"] ∧
    lookupScore "aaa.bbb" (bestScores ["aaa.bbb", "ccc.ddd"] "ddd bbb") =
      some 100 ∧
    lookupScore "ccc.ddd" (bestScores ["aaa.bbb", "ccc.ddd"] "ddd bbb") =
      some 100 ∧
    _fuzzy_suggest ["aaa.bbb", "ccc.ddd"] "ddd bbb" 3 =
      ["ccc.ddd", "aaa.bbb"] := by
  set_option maxRecDepth 10000 in decide

theorem rmax_eq_max (a b : ℚ) : rmax a b = max a b := by
  unfold rmax
  by_cases h : a < b
  · have hb : a.blt b = true := h
    rw [if_pos hb, max_eq_right (le_of_lt h)]
  · have hb : ¬ (a.blt b = true) := h
    rw [if_neg hb, max_eq_left (not_lt.mp h)]

theorem lookupScore_cons_pos (p : String × ℚ) (m : List (String × ℚ))
    (c : String) (h : (p.1 == c) = true) :
    lookupScore c (p :: m) = some p.2 := by
  simp [lookupScore, List.find?_cons, h]

theorem lookupScore_cons_neg (p : String × ℚ) (m : List (String × ℚ))
    (c : String) (h : (p.1 == c) = false) :
    lookupScore c (p :: m) = lookupScore c m := by
  simp [lookupScore, List.find?_cons, h]

theorem lookupScore_append_self (c : String) (v : ℚ) :
    ∀ m : List (String × ℚ), (∀ p ∈ m, (p.1 == c) = false) →
    lookupScore c (m ++ [(c, v)]) = some v
  | [], _ => by
    rw [List.nil_append]
    exact lookupScore_cons_pos _ _ _ (by simp)
  | p :: m, hall => by
    rw [List.cons_append,
      lookupScore_cons_neg _ _ _ (hall p (List.mem_cons_self p m))]
    exact lookupScore_append_self c v m
      (fun q hq => hall q (List.mem_cons_of_mem p hq))

theorem lookupScore_append_other (c d : String) (hne : c ≠ d) (v : ℚ) :
    ∀ m : List (String × ℚ),
    lookupScore d (m ++ [(c, v)]) = lookupScore d m
  | [] => by
    rw [List.nil_append,
      lookupScore_cons_neg _ _ _ (by simpa using hne)]
  | p :: m => by
    rw [List.cons_append]
    by_cases hpd : (p.1 == d) = true
    · rw [lookupScore_cons_pos _ _ _ hpd, lookupScore_cons_pos _ _ _ hpd]
    · rw [lookupScore_cons_neg _ _ _ (by simpa using hpd),
        lookupScore_cons_neg _ _ _ (by simpa using hpd)]
      exact lookupScore_append_other c d hne v m

theorem lookup_map_rmax_pos (c : String) (v : ℚ) :
    ∀ m : List (String × ℚ), m.any (fun p => p.1 == c) = true →
    lookupScore c
        (m.map (fun p => if p.1 == c then (p.1, rmax p.2 v) else p)) =
      (lookupScore c m).map (fun w => rmax w v)
  | [], h => absurd h (by simp)
  | p :: m, h => by
    rw [List.map_cons]
    by_cases hpc : (p.1 == c) = true
    · rw [if_pos hpc, lookupScore_cons_pos (p.1, rmax p.2 v) _ _ hpc,
        lookupScore_cons_pos _ _ _ hpc]
      rfl
    · rw [if_neg hpc, lookupScore_cons_neg _ _ _ (by simpa using hpc),
        lookupScore_cons_neg _ _ _ (by simpa using hpc)]
      have hm : m.any (fun p => p.1 == c) = true := by
        rcases List.any_eq_true.mp h with ⟨q, hq, hqc⟩
        rcases List.mem_cons.mp hq with rfl | hq'
        · exact absurd hqc hpc
        · exact List.any_eq_true.mpr ⟨q, hq', hqc⟩
      exact lookup_map_rmax_pos c v m hm

theorem lookup_map_rmax_other (c d : String) (v : ℚ) (hne : d ≠ c) :
    ∀ m : List (String × ℚ),
    lookupScore d
        (m.map (fun p => if p.1 == c then (p.1, rmax p.2 v) else p)) =
      lookupScore d m
  | [] => rfl
  | p :: m => by
    rw [List.map_cons]
    by_cases hpc : (p.1 == c) = true
    · have hpd : (p.1 == d) = false := by
        have h1 : p.1 = c := by simpa using hpc
        rw [h1, beq_eq_false_iff_ne]
        exact fun h => hne h.symm
      rw [if_pos hpc, lookupScore_cons_neg (p.1, rmax p.2 v) _ _ hpd,
        lookupScore_cons_neg _ _ _ hpd]
      exact lookup_map_rmax_other c d v hne m
    · rw [if_neg hpc]
      by_cases hpd : (p.1 == d) = true
      · rw [lookupScore_cons_pos _ _ _ hpd, lookupScore_cons_pos _ _ _ hpd]
      · rw [lookupScore_cons_neg _ _ _ (by simpa using hpd),
          lookupScore_cons_neg _ _ _ (by simpa using hpd)]
        exact lookup_map_rmax_other c d v hne m

theorem lookup_updBest_self (m : List (String × ℚ)) (c : String) (v : ℚ) :
    lookupScore c (updBest m c v) =
      some (match lookupScore c m with
        | some w => rmax w v
        | none => rmax 0 v) := by
  unfold updBest
  split
  case isTrue h =>
    rw [lookup_map_rmax_pos c v m h]
    cases hl : lookupScore c m with
    | some w => rfl
    | none =>
      exfalso
      rcases List.any_eq_true.mp h with ⟨p, hp, hpc⟩
      have hfind : m.find? (fun p => p.1 == c) = none := by
        unfold lookupScore at hl
        cases hf : m.find? (fun p => p.1 == c) with
        | none => rfl
        | some q => rw [hf] at hl; cases hl
      rw [List.find?_eq_none] at hfind
      exact hfind p hp hpc
  case isFalse h =>
    have hall : ∀ p ∈ m, (p.1 == c) = false := by
      intro p hp
      cases hb : (p.1 == c) with
      | true => exact absurd (List.any_eq_true.mpr ⟨p, hp, hb⟩) h
      | false => rfl
    have hnone : lookupScore c m = none := by
      unfold lookupScore
      rw [List.find?_eq_none.mpr (fun p hp => by simp [hall p hp])]
      rfl
    rw [hnone]
    exact lookupScore_append_self c (rmax 0 v) m hall

theorem lookup_updBest_other (m : List (String × ℚ)) (c d : String) (v : ℚ)
    (hne : d ≠ c) : lookupScore d (updBest m c v) = lookupScore d m := by
  unfold updBest
  split
  · exact lookup_map_rmax_other c d v hne m
  · exact lookupScore_append_other c d (fun h => hne h.symm) (rmax 0 v) m

theorem foldMax_cons_some (a s : ℚ) (vs : List ℚ) :
    foldMax (some a) (s :: vs) = foldMax (some (rmax a s)) vs := rfl

theorem foldMax_cons_none (s : ℚ) (vs : List ℚ) :
    foldMax none (s :: vs) = foldMax (some (rmax 0 s)) vs := rfl

theorem lookup_foldBest (c : String) :
    ∀ (ps : List (String × ℚ)) (m : List (String × ℚ)),
    lookupScore c (ps.foldl (fun m p => updBest m p.1 p.2) m) =
      foldMax (lookupScore c m)
        ((ps.filter (fun p => p.1 == c)).map (fun p => p.2))
  | [], m => rfl
  | p :: ps, m => by
    rw [List.foldl_cons, List.filter_cons]
    by_cases hpc : (p.1 == c) = true
    · have h1 : p.1 = c := by simpa using hpc
      rw [if_pos hpc, List.map_cons, lookup_foldBest c ps (updBest m p.1 p.2)]
      cases hl : lookupScore c m with
      | some w =>
        rw [foldMax_cons_some]
        congr 1
        rw [h1, lookup_updBest_self m c p.2, hl]
      | none =>
        rw [foldMax_cons_none]
        congr 1
        rw [h1, lookup_updBest_self m c p.2, hl]
    · have hne : c ≠ p.1 := fun h => hpc (by simp [h])
      rw [if_neg hpc, lookup_foldBest c ps (updBest m p.1 p.2),
        lookup_updBest_other m p.1 c p.2 hne]

theorem foldMax_acc_spec : ∀ (vs : List ℚ) (a v : ℚ),
    foldMax (some a) vs = some v →
    (v = a ∨ v ∈ vs) ∧ a ≤ v ∧ (∀ s ∈ vs, s ≤ v)
  | [], a, v, h => by
    have ha : a = v := by simpa [foldMax] using h
    exact ⟨Or.inl ha.symm, le_of_eq ha, by intro s hs; cases hs⟩
  | s :: vs, a, v, h => by
    rw [foldMax_cons_some] at h
    rcases foldMax_acc_spec vs (rmax a s) v h with ⟨h1, h2, h3⟩
    rw [rmax_eq_max] at h1 h2
    refine ⟨?_, le_trans (le_max_left a s) h2, ?_⟩
    · rcases h1 with h1 | h1
      · rcases max_choice a s with hm | hm
        · exact Or.inl (h1.trans hm)
        · right
          rw [h1.trans hm]
          exact List.mem_cons_self s vs
      · exact Or.inr (List.mem_cons_of_mem s h1)
    · intro x hx
      rcases List.mem_cons.mp hx with rfl | hx
      · exact le_trans (le_max_right a x) h2
      · exact h3 x hx

theorem foldMax_none_spec (vs : List ℚ) (v : ℚ) (hpos : ∀ s ∈ vs, 0 ≤ s)
    (h : foldMax none vs = some v) : v ∈ vs ∧ ∀ s ∈ vs, s ≤ v := by
  cases vs with
  | nil => cases h
  | cons s vs =>
    rw [foldMax_cons_none] at h
    have hs0 : rmax 0 s = s := by
      rw [rmax_eq_max]
      exact max_eq_right (hpos s (List.mem_cons_self s vs))
    rw [hs0] at h
    rcases foldMax_acc_spec vs s v h with ⟨h1, h2, h3⟩
    constructor
    · rcases h1 with h1 | h1
      · rw [h1]
        exact List.mem_cons_self s vs
      · exact List.mem_cons_of_mem s h1
    · intro x hx
      rcases List.mem_cons.mp hx with rfl | hx
      · exact h2
      · exact h3 x hx

theorem foldl_guard_filter : ∀ (ps : List (String × ℚ))
    (m : List (String × ℚ)),
    ps.foldl (fun m p => if 65 ≤ p.2 then updBest m p.1 p.2 else m) m =
      (ps.filter (fun p => decide (65 ≤ p.2))).foldl
        (fun m p => updBest m p.1 p.2) m
  | [], _ => rfl
  | p :: ps, m => by
    rw [List.foldl_cons, List.filter_cons]
    by_cases h : 65 ≤ p.2
    · rw [if_pos h, if_pos (by simpa using h), List.foldl_cons]
      exact foldl_guard_filter ps _
    · rw [if_neg h, if_neg (by simpa using h)]
      exact foldl_guard_filter ps m

theorem stepToken_eq_retained (flat : List String) (m : List (String × ℚ))
    (tok : List Char) :
    stepToken flat m tok =
      (retainedOf flat tok).foldl (fun m p => updBest m p.1 p.2) m := by
  unfold stepToken retainedOf
  exact foldl_guard_filter (extractTop flat tok 20) m

theorem foldl_stepToken_flatMap (flat : List String) :
    ∀ (toks : List (List Char)) (m : List (String × ℚ)),
    toks.foldl (stepToken flat) m =
      (toks.flatMap (retainedOf flat)).foldl
        (fun m p => updBest m p.1 p.2) m
  | [], _ => rfl
  | tok :: toks, m => by
    rw [List.foldl_cons, List.flatMap_cons, List.foldl_append,
      stepToken_eq_retained]
    exact foldl_stepToken_flatMap flat toks _

theorem bestScores_eq_foldBest (flat : List String) (text : String) :
    bestScores flat text =
      (allRetained flat text).foldl (fun m p => updBest m p.1 p.2) [] := by
  unfold bestScores allRetained
  exact foldl_stepToken_flatMap flat (tokensOf text) []

theorem contribs_ge_65 (flat : List String) (text : String) (cand : String) :
    ∀ s ∈ contribs flat text cand, 65 ≤ s := by
  intro s hs
  unfold contribs at hs
  rcases List.mem_map.mp hs with ⟨p, hp, hps⟩
  have h1 := (List.mem_filter.mp hp).1
  unfold allRetained at h1
  rcases List.mem_flatMap.mp h1 with ⟨tok, _, hpr⟩
  unfold retainedOf at hpr
  have h2 := (List.mem_filter.mp hpr).2
  rw [← hps]
  exact of_decide_eq_true h2

/-- C6 (amended): for every candidate kept in the best-score dict, the
kept value is at least 65, is a partial-ratio score the candidate attained
on some token, and is the maximum among the scores retained through the
per-token shortlists — a candidate matching several tokens gets no boost
beyond its best retained score.  The engine does compute a score for every
token against every flat column, but each token's candidate list is
truncated to the best 20 before the 65-threshold filter, so a score
attained outside a token's top-20 shortlist is not considered (see the
counterexample). -/
theorem fuzzy_best_score_max_of_retained (flat : List String) (text : String)
    (cand : String) (v : ℚ)
    (h : lookupScore cand (bestScores flat text) = some v) :
    65 ≤ v ∧ v ∈ contribs flat text cand ∧
    (∀ s ∈ contribs flat text cand, s ≤ v) ∧
    (∀ tok ∈ tokensOf text, ∀ c ∈ flat,
      (c, pRatio tok c.toList) ∈ rankPairs flat tok) ∧
    (∀ tok ∈ tokensOf text, ∀ p ∈ extractTop flat tok 20,
      p.2 = pRatio tok p.1.toList) := by
  rw [bestScores_eq_foldBest, lookup_foldBest] at h
  have h' : foldMax none (contribs flat text cand) = some v := h
  have hpos : ∀ s ∈ contribs flat text cand, (0 : ℚ) ≤ s :=
    fun s hs =>
      le_trans (by norm_num) (contribs_ge_65 flat text cand s hs)
  rcases foldMax_none_spec _ v hpos h' with ⟨h1, h2⟩
  refine ⟨contribs_ge_65 flat text cand v h1, h1, h2, ?_, ?_⟩
  · intro tok _ c hc
    exact List.mem_map.mpr ⟨c, hc, rfl⟩
  · intro tok _ p hp
    exact (extractTop_mem_score flat tok 20 p hp).2

/-- C6 witness: on a one-column schema the kept score 100 satisfies the
characterization. -/
theorem fuzzy_best_score_max_of_retained_witness :
    65 ≤ (100 : ℚ) ∧ (100 : ℚ) ∈ contribs ["t.abc"] "abc" "t.abc" ∧
    (∀ s ∈ contribs ["t.abc"] "abc" "t.abc", s ≤ (100 : ℚ)) ∧
    (∀ tok ∈ tokensOf "abc", ∀ c ∈ ["t.abc"],
      (c, pRatio tok c.toList) ∈ rankPairs ["t.abc"] tok) ∧
    (∀ tok ∈ tokensOf "abc", ∀ p ∈ extractTop ["t.abc"] tok 20,
      p.2 = pRatio tok p.1.toList) :=
  fuzzy_best_score_max_of_retained ["t.abc"] "abc" "t.abc" 100
    (by set_option maxRecDepth 10000 in decide)

/-- C6 counterexample: token `abcdp` scores 800/9 (≈ 88.9, well above 65)
against column `u.wxyzabcd`, but all 20 other columns score 100, so
`u.wxyzabcd` is pushed out of that token's top-20 shortlist; the second
token `wxyzqq` scores only 200/3 (≈ 66.7) against it, and the dict keeps
200/3 — not the maximum score the candidate achieved over any token,
refuting the claim as stated. -/
theorem fuzzy_max_score_counterexample :
    lookupScore "u.wxyzabcd" (bestScores flatManyTables "abcdp wxyzqq") =
      some (mkRat 200 3) ∧
    pRatio "abcdp".toList "u.wxyzabcd".toList = mkRat 800 9 ∧
    "abcdp".toList ∈ tokensOf "abcdp wxyzqq" ∧
    "u.wxyzabcd" ∈ flatManyTables ∧
    mkRat 200 3 < mkRat 800 9 ∧ (65 : ℚ) ≤ mkRat 800 9 := by
  set_option maxRecDepth 10000 in decide

end Router
